import Mathlib

/-!
# Verification of the simhash repository (suryanshu-09/simhash)

Shallow embedding of the Go source `src/main.go` (package `simhash` after the
document separator): fingerprint construction (`buildByFeatures`, `buildByText`,
`NewSimhash`), fingerprint primitives (`Equal`, `Distance`) and the
near-duplicate index (`Add`, `Delete`, `GetNearDups`, `GetKeys`, `Offsets`).

Conventions of the embedding:
* `big.Int` fingerprint values are embedded as `Nat`; every constructor path in
  the claims produces nonnegative values (negative raw `int64` inputs are
  outside the scope of the claims).
* Go byte slices are `List Nat`; the bit-extraction code only reads bits 0-7 of
  each byte, exactly as Go bytes behave.
* Go `map` iteration is embedded as iteration over an association list.
* fallible Go behaviour (returning `nil`, panicking) is embedded as `Option`.
-/

/-- Go: `largeWeightCutoff = 50` (main.go:119). -/
def largeWeightCutoff : Nat := 50

/-- Go: `batchSize = 200` (main.go:118). -/
def batchSize : Nat := 200

/-- Go: `defaultK = 2` (main.go:120). -/
def defaultK : Nat := 2

/-- Go `bitArrayFromBytes` (main.go:303-312): expand bytes into bits, most
significant bit of each byte first (the inner loop runs `i = 7` down to `0`). -/
def bitArrayFromBytes (hash : List Nat) : List Nat :=
  hash.foldl (fun bitArray b =>
    bitArray ++ (List.range 8).map (fun i => (b >>> (7 - i)) &&& 1)) []

/-- Go `sumHashes` (main.go:314-326): `summed[i] += bits[i]` over all rows of the
bit matrix, for each `i < f`; rendered as, per position, the sum over rows. -/
def sumHashes (digests : List (List Nat)) (f : Nat) : List Nat :=
  let bitMatrix := digests.map bitArrayFromBytes
  (List.range f).map (fun i => (bitMatrix.map (fun bits => bits.getD i 0)).sum)

/-- Go `sumHashesBytes` (main.go:328-340): `nil` for an empty input, otherwise
column sums at positions below the length of the first row. -/
def sumHashesBytes (sums : List (List Nat)) : List Nat :=
  match sums with
  | [] => []
  | first :: _ =>
    (List.range first.length).map (fun i => (sums.map (fun row => row.getD i 0)).sum)

/-- Byte `j` produced by Go `packBits`: the loop ORs `1 << (7 - i%8)` into
`result[i/8]` for each `i` with `bits[i] ≠ 0`; each target position of a byte
is set by at most one `i`, so the byte is the sum of the contributed powers. -/
def packByte (bits : List Nat) (j : Nat) : Nat :=
  (List.range 8).foldl
    (fun acc k => acc + if bits.getD (8 * j + k) 0 ≠ 0 then 2 ^ (7 - k) else 0) 0

/-- Go `packBits` (main.go:342-353): `(len+7)/8` bytes, bit `i` of the input in
byte `i/8` at bit position `7 - i%8`. -/
def packBits (bits : List Nat) : List Nat :=
  (List.range ((bits.length + 7) / 8)).map (packByte bits)

/-- `big.Int.SetBytes`: interpret a byte slice as a big-endian unsigned integer. -/
def bytesToNat (bs : List Nat) : Nat :=
  bs.foldl (fun acc b => acc * 256 + b) 0

/-- The loop state of Go `buildByFeatures` (main.go:252-254): the partial-sum
vectors, the pending batch of (truncated) digests, and the total weight. -/
structure BState where
  sums : List (List Nat)
  batch : List (List Nat)
  count : Nat

/-- One iteration of the feature loop of Go `buildByFeatures` (main.go:256-284):
the weight is added to `count`; the digest is truncated to its low `FBytes`
bytes; a large weight appends its scaled bit array to `sums` directly, the
normal path appends `weight` copies of the digest to `batch`, flushing into
`sums` when the batch reaches `batchSize`; finally `sums` itself collapses to a
single vector when it reaches `batchSize`. -/
def buildStep {α : Type} (hf : α → List Nat) (F FBytes : Nat) (st : BState)
    (p : α × Nat) : BState :=
  let h := (hf p.1).drop ((hf p.1).length - FBytes)
  let sb : List (List Nat) × List (List Nat) :=
    if p.2 > largeWeightCutoff then
      (st.sums ++ [(bitArrayFromBytes h).map (fun bit => bit * p.2)], st.batch)
    else if (st.batch ++ List.replicate p.2 h).length ≥ batchSize then
      (st.sums ++ [sumHashes (st.batch ++ List.replicate p.2 h) F], [])
    else
      (st.sums, st.batch ++ List.replicate p.2 h)
  if sb.1.length ≥ batchSize then ⟨[sumHashesBytes sb.1], sb.2, st.count + p.2⟩
  else ⟨sb.1, sb.2, st.count + p.2⟩

/-- Go `buildByFeatures` (main.go:251-301), returning the fingerprint value
(`s.Value` after `SetBytes`). Go iterates a `map[string]int`; the embedding
iterates an association list of (feature, weight) pairs. -/
def buildByFeatures {α : Type} (hf : α → List Nat) (F FBytes : Nat)
    (features : List (α × Nat)) : Nat :=
  let st := features.foldl (buildStep hf F FBytes) ⟨[], [], 0⟩
  let sums := if st.batch.length > 0 then st.sums ++ [sumHashes st.batch F] else st.sums
  let combinedSums := sumHashesBytes sums
  let finalBits := combinedSums.map (fun val => if val > st.count / 2 then 1 else 0)
  bytesToNat (packBits finalBits)

/-- Go `slide` (main.go:210-220): all windows of the given width (the whole
content if it is shorter than the width). -/
def slide (content : List Char) (width : Nat) : List (List Char) :=
  if content.length < width then [content]
  else (List.range (content.length - width + 1)).map (fun i => (content.drop i).take width)

/-- The character class of the default regex `[\p{Han}\p{L}\p{N}_]+`, restricted
to the basic characters the embedding covers (letters, digits, underscore). -/
def letterLike (c : Char) : Bool := c.isAlpha || c.isDigit || c = '_'

/-- Go `tokenize` (main.go:222-228): lower-case, join all regex matches (equal to
filtering characters by the class), slide a width-4 window. -/
def tokenize (content : List Char) : List (List Char) :=
  slide ((content.map Char.toLower).filter letterLike) 4

/-- Go `buildByText` (main.go:230-239): count token occurrences into a feature
map, then build by features. -/
def buildByText (hf : List Char → List Nat) (F FBytes : Nat) (content : List Char) : Nat :=
  let features := tokenize content
  let featureMap := features.eraseDups.map (fun t => (t, features.count t))
  buildByFeatures hf F FBytes featureMap

/-- The Go `Simhash` struct (main.go:105-112), restricted to the fields the
claims observe: the fingerprint value and its width `F`. -/
structure Simhash where
  value : Nat
  F : Nat
deriving DecidableEq, Repr

/-- The width validation of `NewSimhash` (main.go:146-150), over Go ints.
`Int.tmod` is Go's truncated `%`. -/
def validateF (f : Int) : Int :=
  if f.tmod 8 ≠ 0 ∨ f = 0 then 64 else f

/-- The options of Go `NewSimhash`; only `WithF` (main.go:178-183) changes the
fields the claims observe (the hash function is a separate parameter of the
embedding, standing for the configured `HashFunc`). -/
inductive OptAction where
  | withF (f : Int)

/-- Applying the options in order (main.go:142-144) to the default width 64. -/
def applyOpts (f : Int) (opts : List OptAction) : Int :=
  opts.foldl (fun _ opt => match opt with | .withF g => g) f

/-- The `value any` argument of Go `NewSimhash` (main.go:152-171): one
constructor per supported dynamic type, plus `other` for every unsupported
type. Raw integers are restricted to the nonnegative values the claims use. -/
inductive SValue where
  | simhash (s : Simhash)
  | str (content : String)
  | features (m : List (String × Nat))
  | strList (l : List String)
  | int64 (v : Nat)
  | bigInt (v : Nat)
  | other

/-- Go `NewSimhash` (main.go:132-174); a `nil` result is `none`. The validated
width is nonnegative in every case the claims exercise (`Int.toNat`). -/
def newSimhash (hf : String → List Nat) (value : SValue) (opts : List OptAction) :
    Option Simhash :=
  let F : Nat := (validateF (applyOpts 64 opts)).toNat
  let FBytes : Nat := F / 8
  match value with
  | .simhash s0 => some { value := s0.value, F := F }
  | .str content =>
    some { value := buildByText (fun t => hf (String.mk t)) F FBytes content.toList, F := F }
  | .features m => some { value := buildByFeatures hf F FBytes m, F := F }
  | .strList l =>
    some { value := buildByFeatures hf F FBytes (l.eraseDups.map (fun t => (t, 1))), F := F }
  | .int64 v => some { value := v, F := F }
  | .bigInt v => some { value := v, F := F }
  | .other => none

/-- Go `Equal` (main.go:206-208): `s.Value.Cmp(s2.Value) == 0`, i.e. a pure
value comparison. -/
def Simhash.Equal (s s2 : Simhash) : Bool := s.value == s2.value

/-- The popcount loop of Go `Distance` (main.go:367-372): clear the lowest set
bit until the value is zero, counting iterations. -/
def hammingLoop (x : Nat) : Nat :=
  if h : x = 0 then 0 else hammingLoop (x &&& (x - 1)) + 1
decreasing_by
  exact Nat.lt_of_le_of_lt Nat.and_le_right (Nat.sub_lt (Nat.pos_of_ne_zero h) Nat.one_pos)

/-- Go `Distance` (main.go:356-375): the panic on width mismatch is `none`;
otherwise popcount of `(a XOR b) AND (1<<F - 1)`. -/
def Simhash.Distance (s other : Simhash) : Option Nat :=
  if s.F ≠ other.F then none
  else some (hammingLoop ((s.value ^^^ other.value) &&& (2 ^ s.F - 1)))

/-- Modelled from the spec: `Similarity` on Simhash pairs is missing from src
(only the demo `main` references a separate uint64 API that is not in the
sources). Spec 4.2: `1 - Distance(a,b)/width`, defined only when the widths
match; the width mismatch fails like `Distance`. -/
def Simhash.Similarity (s other : Simhash) : Option ℚ :=
  (s.Distance other).map (fun d => 1 - (d : ℚ) / s.F)

/-- Go `Object` (main.go:383-386); the nil `*Simhash` is `none`. -/
structure Object where
  ObjectId : String
  S : Option Simhash

/-- The Go `SimhashIndex` struct (main.go:408-413). The bucket table
`map[string]map[string]string` maps a bucket key to a set of serialized
entries (the inner map has identical keys and values); an absent bucket is
`none`. Keys and entries are embedded as pairs, see `SimhashIndex.GetKeys`
and `entryVal` for the injective string encodings they stand for. -/
@[ext]
structure SimhashIndex where
  K : Nat
  F : Nat
  Bucket : Nat × Nat → Option (Finset (Nat × String))

/-- Go `Offsets` (main.go:521-528): `chunk * i` for `i = 0..K`,
`chunk = F / (K+1)`. -/
def SimhashIndex.Offsets (s : SimhashIndex) : List Nat :=
  (List.range (s.K + 1)).map (fun i => (s.F / (s.K + 1)) * i)

/-- Go `GetKeys` (main.go:497-519). The Go key `fmt.Sprintf("%x:%x", c, i)` is
an injective encoding of the pair `(c, i)` (hex digits contain no colon), so
the embedding keys buckets by the pair itself. -/
def SimhashIndex.GetKeys (s : SimhashIndex) (sim : Simhash) : List (Nat × Nat) :=
  let offsets := s.Offsets
  (List.range offsets.length).map (fun i =>
    let offset := offsets.getD i 0
    let maskLen := if i = offsets.length - 1 then s.F - offset
      else offsets.getD (i + 1) 0 - offset
    ((sim.value >>> offset) &&& (2 ^ maskLen - 1), i))

/-- The serialized bucket entry `fmt.Sprintf("%x,%s", value, objectId)`
(main.go:438, 451): hex digits contain no comma and `SplitN(val, ",", 2)`
recovers both components, so the encoding is injective and the embedding keeps
the pair. -/
def entryVal (sh : Simhash) (objectId : String) : Nat × String := (sh.value, objectId)

/-- Go `Add` (main.go:434-445): a silent no-op for a nil or width-mismatched
fingerprint, otherwise the serialized entry is inserted into each of the K+1
buckets (creating absent buckets). -/
def SimhashIndex.Add (s : SimhashIndex) (obj : Object) : SimhashIndex :=
  match obj.S with
  | none => s
  | some sh =>
    if sh.F ≠ s.F then s
    else
      { s with Bucket := ((s.GetKeys sh).foldl (fun t key =>
          Function.update t key (some (insert (entryVal sh obj.ObjectId) ((t key).getD ∅))))
          s.Bucket) }

/-- Go `Delete` (main.go:447-460): a silent no-op for a nil or width-mismatched
fingerprint; present buckets lose the serialized entry and are removed when
they become empty. -/
def SimhashIndex.Delete (s : SimhashIndex) (obj : Object) : SimhashIndex :=
  match obj.S with
  | none => s
  | some sh =>
    if sh.F ≠ s.F then s
    else
      { s with Bucket := ((s.GetKeys sh).foldl (fun t key =>
          match t key with
          | none => t
          | some bucket =>
            let removed := bucket.erase (entryVal sh obj.ObjectId)
            Function.update t key (if removed = ∅ then none else some removed))
          s.Bucket) }

/-- Go `GetNearDups` (main.go:462-490): `nil` on width mismatch; otherwise the
union over the query's K+1 bucket keys of the object ids of entries within
`Distance ≤ K`. The reconstructed candidate has width `s.F`, equal to the
query's inside this branch, so the `Option` default (`s.K + 1`, failing the
filter) of the embedded `Distance` is never taken. -/
def SimhashIndex.GetNearDups (s : SimhashIndex) (simhash : Simhash) : Finset String :=
  if simhash.F ≠ s.F then ∅
  else
    (s.GetKeys simhash).foldl (fun result key =>
      result ∪ (((s.Bucket key).getD ∅).filter (fun e =>
        (simhash.Distance { value := e.1, F := s.F }).getD (s.K + 1) ≤ s.K)).image
          Prod.snd) ∅

/-- Go `NewSimhashIndex` (main.go:415-432), with the configuration explicit. -/
def NewSimhashIndex (objs : List Object) (K F : Nat) : SimhashIndex :=
  objs.foldl SimhashIndex.Add { K := K, F := F, Bucket := fun _ => none }

/-- Spec-level accumulated column sum: `combined[i]` is the sum over all
features of `weight * bit i` of the feature's truncated digest. -/
def colSum {α : Type} (hf : α → List Nat) (FBytes : Nat) (features : List (α × Nat))
    (i : Nat) : Nat :=
  (features.map (fun p =>
    p.2 * (bitArrayFromBytes ((hf p.1).drop ((hf p.1).length - FBytes))).getD i 0)).sum

/-- Spec-level total weight of a feature list. -/
def totalWeight {α : Type} (features : List (α × Nat)) : Nat :=
  (features.map (fun p => p.2)).sum

/-- Spec-level Hamming distance: the number of bit positions below `F` where
the two values differ. -/
def specHammingDist (F a b : Nat) : Nat :=
  ((Finset.range F).filter (fun i => a.testBit i ≠ b.testBit i)).card

/-! ## Packing lemmas: bits of `bytesToNat (packBits bits)` -/

lemma getD_map_range {β : Type} (f : Nat → β) (n j : Nat) (d : β) (hj : j < n) :
    ((List.range n).map f).getD j d = f j := by
  rw [List.getD_eq_getElem?_getD, List.getElem?_map, List.getElem?_range hj]
  rfl

lemma foldlBytes_acc (bs : List Nat) (acc : Nat) :
    bs.foldl (fun a b => a * 256 + b) acc =
      acc * 256 ^ bs.length + bs.foldl (fun a b => a * 256 + b) 0 := by
  induction bs generalizing acc with
  | nil => simp
  | cons b t ih =>
    simp only [List.foldl_cons, List.length_cons]
    rw [ih (acc * 256 + b), ih (0 * 256 + b)]
    ring

lemma bytesToNat_cons (b : Nat) (t : List Nat) :
    bytesToNat (b :: t) = b * 256 ^ t.length + bytesToNat t := by
  show (b :: t).foldl _ 0 = _
  rw [List.foldl_cons, foldlBytes_acc]
  show (0 * 256 + b) * 256 ^ t.length + bytesToNat t = _
  ring

lemma bytesToNat_lt (bs : List Nat) (h : ∀ b ∈ bs, b < 256) :
    bytesToNat bs < 256 ^ bs.length := by
  induction bs with
  | nil => simp [bytesToNat]
  | cons b t ih =>
    rw [bytesToNat_cons]
    have hb : b < 256 := h b (by simp)
    have ht : bytesToNat t < 256 ^ t.length := ih (fun x hx => h x (by simp [hx]))
    calc b * 256 ^ t.length + bytesToNat t
        < b * 256 ^ t.length + 256 ^ t.length := by omega
      _ = (b + 1) * 256 ^ t.length := by ring
      _ ≤ 256 * 256 ^ t.length := Nat.mul_le_mul_right _ (by omega)
      _ = 256 ^ (t.length + 1) := by ring

lemma two_pow_eight_mul (n : Nat) : (256 : Nat) ^ n = 2 ^ (8 * n) := by
  rw [pow_mul]
  norm_num

lemma testBit_bytesToNat (bs : List Nat) (h256 : ∀ b ∈ bs, b < 256)
    (j k : Nat) (hj : j < bs.length) (hk : k < 8) :
    (bytesToNat bs).testBit (8 * (bs.length - 1 - j) + k) = (bs.getD j 0).testBit k := by
  induction bs generalizing j with
  | nil => simp at hj
  | cons b t ih =>
    have hrest : bytesToNat t < 2 ^ (8 * t.length) := by
      rw [← two_pow_eight_mul]
      exact bytesToNat_lt t (fun x hx => h256 x (by simp [hx]))
    have hrw : bytesToNat (b :: t) = 2 ^ (8 * t.length) * b + bytesToNat t := by
      rw [bytesToNat_cons, two_pow_eight_mul, Nat.mul_comm]
    rw [hrw, Nat.testBit_mul_pow_two_add b hrest]
    cases j with
    | zero =>
      have hpos : 8 * ((b :: t).length - 1 - 0) + k = 8 * t.length + k := by
        simp
      rw [hpos, if_neg (by omega)]
      show b.testBit _ = b.testBit k
      congr 1
      omega
    | succ j' =>
      have hj' : j' < t.length := by simpa using hj
      have hlt : 8 * ((b :: t).length - 1 - (j' + 1)) + k < 8 * t.length := by
        simp only [List.length_cons]
        omega
      rw [if_pos hlt]
      have harg : 8 * ((b :: t).length - 1 - (j' + 1)) + k = 8 * (t.length - 1 - j') + k := by
        simp only [List.length_cons]
        omega
      rw [harg, ih (fun x hx => h256 x (by simp [hx])) j' hj']
      rfl

/-- The byte assembled from eight bit flags, most significant first. -/
def boolByte (b0 b1 b2 b3 b4 b5 b6 b7 : Bool) : Nat :=
  (((((((if b0 then 128 else 0) + (if b1 then 64 else 0)) + (if b2 then 32 else 0)) +
    (if b3 then 16 else 0)) + (if b4 then 8 else 0)) + (if b5 then 4 else 0)) +
    (if b6 then 2 else 0)) + (if b7 then 1 else 0)

set_option maxRecDepth 8192 in
lemma boolByte_lt : ∀ b0 b1 b2 b3 b4 b5 b6 b7 : Bool,
    boolByte b0 b1 b2 b3 b4 b5 b6 b7 < 256 := by
  decide

set_option maxRecDepth 8192 in
lemma boolByte_testBit : ∀ (k : Fin 8) (b0 b1 b2 b3 b4 b5 b6 b7 : Bool),
    (boolByte b0 b1 b2 b3 b4 b5 b6 b7).testBit (7 - k.val) =
      [b0, b1, b2, b3, b4, b5, b6, b7].getD k.val false := by
  decide

lemma packByte_eq_boolByte (bits : List Nat) (j : Nat) :
    packByte bits j = boolByte
      (decide (bits.getD (8 * j + 0) 0 ≠ 0)) (decide (bits.getD (8 * j + 1) 0 ≠ 0))
      (decide (bits.getD (8 * j + 2) 0 ≠ 0)) (decide (bits.getD (8 * j + 3) 0 ≠ 0))
      (decide (bits.getD (8 * j + 4) 0 ≠ 0)) (decide (bits.getD (8 * j + 5) 0 ≠ 0))
      (decide (bits.getD (8 * j + 6) 0 ≠ 0)) (decide (bits.getD (8 * j + 7) 0 ≠ 0)) := by
  show (List.range 8).foldl _ 0 = _
  simp only [List.range_succ, List.range_zero, List.nil_append, List.foldl_append,
    List.foldl_cons, List.foldl_nil, boolByte, decide_eq_true_eq]
  norm_num

lemma packByte_lt (bits : List Nat) (j : Nat) : packByte bits j < 256 := by
  rw [packByte_eq_boolByte]
  exact boolByte_lt _ _ _ _ _ _ _ _

lemma packByte_testBit (bits : List Nat) (j m : Nat) (hm : m < 8) :
    (packByte bits j).testBit (7 - m) = decide (bits.getD (8 * j + m) 0 ≠ 0) := by
  rw [packByte_eq_boolByte]
  interval_cases m
  · exact boolByte_testBit 0 _ _ _ _ _ _ _ _
  · exact boolByte_testBit 1 _ _ _ _ _ _ _ _
  · exact boolByte_testBit 2 _ _ _ _ _ _ _ _
  · exact boolByte_testBit 3 _ _ _ _ _ _ _ _
  · exact boolByte_testBit 4 _ _ _ _ _ _ _ _
  · exact boolByte_testBit 5 _ _ _ _ _ _ _ _
  · exact boolByte_testBit 6 _ _ _ _ _ _ _ _
  · exact boolByte_testBit 7 _ _ _ _ _ _ _ _

lemma packBits_length (bits : List Nat) : (packBits bits).length = (bits.length + 7) / 8 := by
  simp [packBits]

lemma testBit_pack (bits : List Nat) (n : Nat) (hn : bits.length = 8 * n)
    (i : Nat) (hi : i < bits.length) :
    (bytesToNat (packBits bits)).testBit (bits.length - 1 - i) =
      decide (bits.getD i 0 ≠ 0) := by
  have hN : (packBits bits).length = n := by
    rw [packBits_length, hn]
    omega
  have h256 : ∀ b ∈ packBits bits, b < 256 := by
    intro b hb
    obtain ⟨j, hjn, rfl⟩ := List.mem_map.mp hb
    exact packByte_lt _ _
  have harg : bits.length - 1 - i = 8 * ((packBits bits).length - 1 - i / 8) + (7 - i % 8) := by
    rw [hN, hn]
    omega
  rw [harg, testBit_bytesToNat (packBits bits) h256 (i / 8) (7 - i % 8) (by omega) (by omega)]
  have hgd : (packBits bits).getD (i / 8) 0 = packByte bits (i / 8) := by
    have := getD_map_range (packByte bits) ((bits.length + 7) / 8) (i / 8) 0 (by omega)
    simpa [packBits] using this
  rw [hgd, packByte_testBit bits (i / 8) (i % 8) (by omega)]
  have hidx : 8 * (i / 8) + i % 8 = i := by omega
  rw [hidx]

lemma bytesToNat_packBits_lt (bits : List Nat) :
    bytesToNat (packBits bits) < 2 ^ (8 * ((bits.length + 7) / 8)) := by
  have h256 : ∀ b ∈ packBits bits, b < 256 := by
    intro b hb
    obtain ⟨j, hjn, rfl⟩ := List.mem_map.mp hb
    exact packByte_lt _ _
  have := bytesToNat_lt (packBits bits) h256
  rwa [packBits_length, two_pow_eight_mul] at this

/-! ## Popcount: the Kernighan loop of `Distance` counts set bits -/

/-- Binary digit sum of a natural number. -/
def bitCount (v : Nat) : Nat :=
  if h : v = 0 then 0 else v % 2 + bitCount (v / 2)
decreasing_by
  exact Nat.div_lt_self (Nat.pos_of_ne_zero h) Nat.one_lt_two

lemma bitCount_zero : bitCount 0 = 0 := by
  rw [bitCount]
  simp

lemma bitCount_two_mul (y : Nat) : bitCount (2 * y) = bitCount y := by
  rcases Nat.eq_zero_or_pos y with h0 | hpos
  · subst h0
    rfl
  · rw [bitCount, dif_neg (by omega)]
    have h1 : 2 * y % 2 = 0 := by omega
    have h2 : 2 * y / 2 = y := by omega
    rw [h1, h2, Nat.zero_add]

lemma bitCount_two_mul_add_one (y : Nat) : bitCount (2 * y + 1) = bitCount y + 1 := by
  rw [bitCount, dif_neg (by omega)]
  have h1 : (2 * y + 1) % 2 = 1 := by omega
  have h2 : (2 * y + 1) / 2 = y := by omega
  rw [h1, h2, Nat.add_comm]

lemma and_pred_odd (y : Nat) : (2 * y + 1) &&& (2 * y) = 2 * y := by
  apply Nat.eq_of_testBit_eq
  intro i
  cases i with
  | zero =>
    have h1 : (2 * y + 1) % 2 = 1 := by omega
    have h2 : 2 * y % 2 = 0 := by omega
    simp [Nat.testBit_and, Nat.testBit_zero, h1, h2]
  | succ i =>
    have h1 : (2 * y + 1) / 2 = y := by omega
    have h2 : 2 * y / 2 = y := by omega
    simp only [Nat.testBit_and]
    simp [Nat.testBit_succ, h1, h2]

lemma and_pred_even (y : Nat) (hy : 0 < y) :
    (2 * y) &&& (2 * y - 1) = 2 * (y &&& (y - 1)) := by
  apply Nat.eq_of_testBit_eq
  intro i
  cases i with
  | zero =>
    have h1 : 2 * y % 2 = 0 := by omega
    have h2 : 2 * (y &&& (y - 1)) % 2 = 0 := by omega
    simp [Nat.testBit_and, Nat.testBit_zero, h1, h2]
  | succ i =>
    have h1 : 2 * y / 2 = y := by omega
    have h2 : (2 * y - 1) / 2 = y - 1 := by omega
    have h3 : 2 * (y &&& (y - 1)) / 2 = y &&& (y - 1) := by omega
    simp only [Nat.testBit_and]
    simp [Nat.testBit_succ, Nat.testBit_and, h1, h2, h3]

lemma bitCount_and_pred (x : Nat) (hx : 0 < x) :
    bitCount (x &&& (x - 1)) + 1 = bitCount x := by
  induction x using Nat.strong_induction_on with
  | _ x ih =>
    rcases Nat.even_or_odd x with he | ho
    · obtain ⟨y, hy⟩ := he
      have hx2 : x = 2 * y := by omega
      have hypos : 0 < y := by omega
      subst hx2
      rw [and_pred_even y hypos, bitCount_two_mul, bitCount_two_mul]
      exact ih y (by omega) hypos
    · obtain ⟨y, hy⟩ := ho
      subst hy
      have hsub : 2 * y + 1 - 1 = 2 * y := by omega
      rw [hsub, and_pred_odd, bitCount_two_mul, bitCount_two_mul_add_one]

lemma hammingLoop_eq_bitCount (x : Nat) : hammingLoop x = bitCount x := by
  induction x using Nat.strong_induction_on with
  | _ x ih =>
    rcases Nat.eq_zero_or_pos x with h0 | hpos
    · subst h0
      rw [hammingLoop, bitCount]
      simp
    · rw [hammingLoop, dif_neg (by omega)]
      have hlt : x &&& (x - 1) < x :=
        Nat.lt_of_le_of_lt Nat.and_le_right (Nat.sub_lt hpos Nat.one_pos)
      rw [ih _ hlt, bitCount_and_pred x hpos]

lemma bitCount_eq_card : ∀ (n x : Nat), x < 2 ^ n →
    bitCount x = ((Finset.range n).filter (fun i => x.testBit i)).card := by
  intro n
  induction n with
  | zero =>
    intro x hx
    interval_cases x
    simp [bitCount_zero]
  | succ n ih =>
    intro x hx
    rcases Nat.eq_zero_or_pos x with h0 | hpos
    · subst h0
      simp [bitCount_zero]
    · rw [bitCount, dif_neg (by omega)]
      have hdiv : x / 2 < 2 ^ n := by
        have h2 : (2 : Nat) ^ (n + 1) = 2 * 2 ^ n := by ring
        omega
      rw [ih (x / 2) hdiv]
      rw [Finset.card_filter, Finset.card_filter, Finset.sum_range_succ']
      simp only [Nat.testBit_succ]
      have h0bit : (if x.testBit 0 then 1 else 0) = x % 2 := by
        rw [Nat.testBit_zero]
        rcases Nat.mod_two_eq_zero_or_one x with h | h <;> simp [h]
      rw [h0bit, Nat.add_comm]

lemma hammingLoop_eq_card (n x : Nat) (hx : x < 2 ^ n) :
    hammingLoop x = ((Finset.range n).filter (fun i => x.testBit i)).card := by
  rw [hammingLoop_eq_bitCount, bitCount_eq_card n x hx]

lemma masked_lt (x F : Nat) : x &&& (2 ^ F - 1) < 2 ^ F :=
  Nat.lt_of_le_of_lt Nat.and_le_right (Nat.sub_lt (Nat.pos_pow_of_pos F (by omega)) Nat.one_pos)

lemma hammingLoop_masked (F a b : Nat) :
    hammingLoop ((a ^^^ b) &&& (2 ^ F - 1)) = specHammingDist F a b := by
  rw [hammingLoop_eq_card F _ (masked_lt _ F), specHammingDist]
  congr 1
  apply Finset.filter_congr
  intro i hi
  have hiF : i < F := Finset.mem_range.mp hi
  simp only [Nat.testBit_and, Nat.testBit_xor, Nat.testBit_two_pow_sub_one, decide_eq_true_eq,
    hiF, decide_True, Bool.and_true]
  cases a.testBit i <;> cases b.testBit i <;> simp

/-! ## The builder: batching and collapsing preserve the column sums -/

lemma foldl_append_bind {α β : Type} (l : List α) (f : α → List β) (acc : List β) :
    l.foldl (fun L b => L ++ f b) acc = acc ++ l.flatMap f := by
  induction l generalizing acc with
  | nil => simp
  | cons b t ih => simp [ih, List.append_assoc]

lemma sum_map_const_eight {α : Type} (l : List α) : (l.map (fun _ => 8)).sum = 8 * l.length := by
  induction l with
  | nil => simp
  | cons b t ih => simp [ih]; ring

lemma bitArrayFromBytes_eq_bind (hash : List Nat) :
    bitArrayFromBytes hash =
      hash.flatMap (fun b => (List.range 8).map (fun i => (b >>> (7 - i)) &&& 1)) := by
  have h := foldl_append_bind hash
    (fun b => (List.range 8).map (fun i => (b >>> (7 - i)) &&& 1)) []
  simpa [bitArrayFromBytes] using h

lemma length_bitArrayFromBytes (hash : List Nat) :
    (bitArrayFromBytes hash).length = 8 * hash.length := by
  induction hash with
  | nil => rfl
  | cons b t ih =>
    rw [bitArrayFromBytes_eq_bind] at ih ⊢
    simp only [List.flatMap_cons, List.length_append, List.length_map, List.length_range, ih,
      List.length_cons]
    omega

lemma length_trunc (L FBytes : Nat) (h : List Nat) (hL : h.length = L) :
    (h.drop (L - FBytes)).length ≤ FBytes := by
  rw [List.length_drop, hL]
  omega

lemma length_trunc_eq (FBytes : Nat) (h : List Nat) (hL : FBytes ≤ h.length) :
    (h.drop (h.length - FBytes)).length = FBytes := by
  rw [List.length_drop]
  omega

lemma getD_map_mul (l : List Nat) (w i : Nat) :
    ((l.map (fun b => b * w)).getD i 0) = (l.getD i 0) * w := by
  rw [List.getD_eq_getElem?_getD, List.getD_eq_getElem?_getD, List.getElem?_map]
  cases l[i]? <;> simp

lemma sumHashes_length (ds : List (List Nat)) (f : Nat) : (sumHashes ds f).length = f := by
  simp [sumHashes]

lemma sumHashes_col (ds : List (List Nat)) (F FBytes : Nat) (hFB : F = 8 * FBytes)
    (hds : ∀ h ∈ ds, h.length = FBytes) (i : Nat) :
    (sumHashes ds F).getD i 0 = (ds.map (fun h => (bitArrayFromBytes h).getD i 0)).sum := by
  by_cases hiF : i < F
  · have h := getD_map_range
      (fun i => ((ds.map bitArrayFromBytes).map (fun bits => bits.getD i 0)).sum) F i 0 hiF
    simp only [sumHashes]
    rw [h]
    simp only [List.map_map]
    rfl
  · have hlen : (sumHashes ds F).length = F := sumHashes_length ds F
    rw [List.getD_eq_default _ _ (by omega)]
    symm
    apply List.sum_eq_zero
    intro x hx
    obtain ⟨h, hh, rfl⟩ := List.mem_map.mp hx
    apply List.getD_eq_default
    rw [length_bitArrayFromBytes, hds h hh]
    omega

lemma sumHashesBytes_col (rows : List (List Nat)) (F : Nat)
    (hrows : ∀ r ∈ rows, r.length = F) (i : Nat) :
    (sumHashesBytes rows).getD i 0 = (rows.map (fun r => r.getD i 0)).sum := by
  match rows with
  | [] => simp [sumHashesBytes]
  | first :: rest =>
    have hfirst : first.length = F := hrows first (by simp)
    by_cases hiF : i < F
    · show ((List.range first.length).map _).getD i 0 = _
      rw [hfirst]
      rw [getD_map_range _ F i 0 hiF]
    · rw [List.getD_eq_default, eq_comm]
      · apply List.sum_eq_zero
        intro x hx
        obtain ⟨r, hr, rfl⟩ := List.mem_map.mp hx
        exact List.getD_eq_default _ _ (by rw [hrows r hr]; omega)
      · show ((List.range first.length).map _).length ≤ i
        rw [List.length_map, List.length_range, hfirst]
        omega

lemma sumHashesBytes_length_of_ne (rows : List (List Nat)) (F : Nat) (hne : rows ≠ [])
    (hrows : ∀ r ∈ rows, r.length = F) : (sumHashesBytes rows).length = F := by
  match rows with
  | [] => exact absurd rfl hne
  | first :: rest =>
    show ((List.range first.length).map _).length = F
    rw [List.length_map, List.length_range, hrows first (by simp)]

/-- The total column value carried by a builder state: the column sums already
folded into `sums` plus the bit contributions still pending in `batch`. -/
def stVal (st : BState) (i : Nat) : Nat :=
  (st.sums.map (fun r => r.getD i 0)).sum +
    (st.batch.map (fun h => (bitArrayFromBytes h).getD i 0)).sum

lemma collapse_len (rows : List (List Nat)) (F : Nat) (hne : rows ≠ [])
    (hrows : ∀ r ∈ rows, r.length = F) :
    ∀ r ∈ [sumHashesBytes rows], r.length = F := by
  intro r hr
  rw [List.mem_singleton] at hr
  subst hr
  exact sumHashesBytes_length_of_ne rows F hne hrows

lemma collapse_col (rows : List (List Nat)) (F : Nat)
    (hrows : ∀ r ∈ rows, r.length = F) (i : Nat) :
    (([sumHashesBytes rows]).map (fun r => r.getD i 0)).sum =
      (rows.map (fun r => r.getD i 0)).sum := by
  rw [List.map_singleton, List.sum_singleton, sumHashesBytes_col rows F hrows i]

lemma batchSize_eq : batchSize = 200 := rfl

lemma buildStep_spec {α : Type} (hf : α → List Nat) (F FBytes : Nat) (hFB : F = 8 * FBytes)
    (st : BState) (p : α × Nat)
    (hsums : ∀ r ∈ st.sums, r.length = F)
    (hbatch : ∀ x ∈ st.batch, x.length = FBytes)
    (hw : 1 ≤ p.2) (hlen : FBytes ≤ (hf p.1).length) :
    (∀ r ∈ (buildStep hf F FBytes st p).sums, r.length = F) ∧
    (∀ x ∈ (buildStep hf F FBytes st p).batch, x.length = FBytes) ∧
    (buildStep hf F FBytes st p).count = st.count + p.2 ∧
    (∀ i, stVal (buildStep hf F FBytes st p) i =
      stVal st i + p.2 * (bitArrayFromBytes ((hf p.1).drop ((hf p.1).length - FBytes))).getD i 0) ∧
    ((buildStep hf F FBytes st p).sums ≠ [] ∨ (buildStep hf F FBytes st p).batch ≠ []) := by
  have hhlen : ((hf p.1).drop ((hf p.1).length - FBytes)).length = FBytes :=
    length_trunc_eq FBytes _ hlen
  have hrowlen : ((bitArrayFromBytes ((hf p.1).drop ((hf p.1).length - FBytes))).map
      (fun bit => bit * p.2)).length = F := by
    rw [List.length_map, length_bitArrayFromBytes, hhlen, hFB]
  have hrowcol : ∀ i, ((bitArrayFromBytes ((hf p.1).drop ((hf p.1).length - FBytes))).map
      (fun bit => bit * p.2)).getD i 0 =
      p.2 * (bitArrayFromBytes ((hf p.1).drop ((hf p.1).length - FBytes))).getD i 0 := by
    intro i
    rw [getD_map_mul]
    ring
  have hbatchlen : ∀ x ∈ st.batch ++ List.replicate p.2 ((hf p.1).drop ((hf p.1).length - FBytes)),
      x.length = FBytes := by
    intro x hx
    rcases List.mem_append.mp hx with hx1 | hx2
    · exact hbatch x hx1
    · rw [List.eq_of_mem_replicate hx2]
      exact hhlen
  have hbatchcol : ∀ i, ((st.batch ++ List.replicate p.2 ((hf p.1).drop ((hf p.1).length - FBytes))).map
      (fun x => (bitArrayFromBytes x).getD i 0)).sum =
      (st.batch.map (fun x => (bitArrayFromBytes x).getD i 0)).sum +
        p.2 * (bitArrayFromBytes ((hf p.1).drop ((hf p.1).length - FBytes))).getD i 0 := by
    intro i
    rw [List.map_append, List.sum_append, List.map_replicate, List.sum_replicate, smul_eq_mul]
  have hfrowlen : (sumHashes (st.batch ++ List.replicate p.2
      ((hf p.1).drop ((hf p.1).length - FBytes))) F).length = F := sumHashes_length _ _
  have hfrowcol : ∀ i, (sumHashes (st.batch ++ List.replicate p.2
      ((hf p.1).drop ((hf p.1).length - FBytes))) F).getD i 0 =
      ((st.batch ++ List.replicate p.2 ((hf p.1).drop ((hf p.1).length - FBytes))).map
        (fun x => (bitArrayFromBytes x).getD i 0)).sum := by
    intro i
    exact sumHashes_col _ F FBytes hFB hbatchlen i
  by_cases hskip : p.2 > largeWeightCutoff
  · by_cases hcol : (st.sums ++ [(bitArrayFromBytes ((hf p.1).drop ((hf p.1).length - FBytes))).map
        (fun bit => bit * p.2)]).length ≥ batchSize
    · have hstep : buildStep hf F FBytes st p =
          ⟨[sumHashesBytes (st.sums ++ [(bitArrayFromBytes ((hf p.1).drop
            ((hf p.1).length - FBytes))).map (fun bit => bit * p.2)])], st.batch,
            st.count + p.2⟩ := by
        simp only [buildStep]
        rw [if_pos hskip, if_pos hcol]
      have hresRows : ∀ r ∈ st.sums ++ [(bitArrayFromBytes ((hf p.1).drop
          ((hf p.1).length - FBytes))).map (fun bit => bit * p.2)], r.length = F := by
        intro r hr
        rcases List.mem_append.mp hr with hr1 | hr2
        · exact hsums r hr1
        · rw [List.mem_singleton] at hr2
          subst hr2
          exact hrowlen
      rw [hstep]
      refine ⟨collapse_len _ F (by simp) hresRows, hbatch, rfl, ?_, by simp⟩
      intro i
      simp only [stVal]
      rw [collapse_col _ F hresRows i]
      simp only [List.map_append, List.sum_append, List.map_cons, List.map_nil, List.sum_cons,
        List.sum_nil, hrowcol i]
      ring
    · have hstep : buildStep hf F FBytes st p =
          ⟨st.sums ++ [(bitArrayFromBytes ((hf p.1).drop ((hf p.1).length - FBytes))).map
            (fun bit => bit * p.2)], st.batch, st.count + p.2⟩ := by
        simp only [buildStep]
        rw [if_pos hskip, if_neg hcol]
      rw [hstep]
      refine ⟨?_, hbatch, rfl, ?_, by simp⟩
      · intro r hr
        rcases List.mem_append.mp hr with hr1 | hr2
        · exact hsums r hr1
        · rw [List.mem_singleton] at hr2
          subst hr2
          exact hrowlen
      · intro i
        simp only [stVal]
        simp only [List.map_append, List.sum_append, List.map_cons, List.map_nil, List.sum_cons,
          List.sum_nil, hrowcol i]
        ring
  · by_cases hflush : (st.batch ++ List.replicate p.2
        ((hf p.1).drop ((hf p.1).length - FBytes))).length ≥ batchSize
    · by_cases hcol : (st.sums ++ [sumHashes (st.batch ++ List.replicate p.2
          ((hf p.1).drop ((hf p.1).length - FBytes))) F]).length ≥ batchSize
      · have hstep : buildStep hf F FBytes st p =
            ⟨[sumHashesBytes (st.sums ++ [sumHashes (st.batch ++ List.replicate p.2
              ((hf p.1).drop ((hf p.1).length - FBytes))) F])], [], st.count + p.2⟩ := by
          simp only [buildStep]
          rw [if_neg hskip, if_pos hflush, if_pos hcol]
        have hresRows : ∀ r ∈ st.sums ++ [sumHashes (st.batch ++ List.replicate p.2
            ((hf p.1).drop ((hf p.1).length - FBytes))) F], r.length = F := by
          intro r hr
          rcases List.mem_append.mp hr with hr1 | hr2
          · exact hsums r hr1
          · rw [List.mem_singleton] at hr2
            subst hr2
            exact hfrowlen
        rw [hstep]
        refine ⟨collapse_len _ F (by simp) hresRows, by simp, rfl, ?_, by simp⟩
        intro i
        simp only [stVal]
        rw [collapse_col _ F hresRows i]
        simp only [List.map_append, List.sum_append, List.map_cons, List.map_nil, List.sum_cons,
          List.sum_nil, hfrowcol i, hbatchcol i, List.map_replicate, List.sum_replicate,
          smul_eq_mul]
        ring
      · have hstep : buildStep hf F FBytes st p =
            ⟨st.sums ++ [sumHashes (st.batch ++ List.replicate p.2
              ((hf p.1).drop ((hf p.1).length - FBytes))) F], [], st.count + p.2⟩ := by
          simp only [buildStep]
          rw [if_neg hskip, if_pos hflush, if_neg hcol]
        rw [hstep]
        refine ⟨?_, by simp, rfl, ?_, by simp⟩
        · intro r hr
          rcases List.mem_append.mp hr with hr1 | hr2
          · exact hsums r hr1
          · rw [List.mem_singleton] at hr2
            subst hr2
            exact hfrowlen
        · intro i
          simp only [stVal]
          simp only [List.map_append, List.sum_append, List.map_cons, List.map_nil, List.sum_cons,
            List.sum_nil, hfrowcol i, hbatchcol i, List.map_replicate, List.sum_replicate,
            smul_eq_mul]
          ring
    · by_cases hcol : st.sums.length ≥ batchSize
      · have hstep : buildStep hf F FBytes st p =
            ⟨[sumHashesBytes st.sums], st.batch ++ List.replicate p.2
              ((hf p.1).drop ((hf p.1).length - FBytes)), st.count + p.2⟩ := by
          simp only [buildStep]
          rw [if_neg hskip, if_neg hflush, if_pos hcol]
        have hne : st.sums ≠ [] := by
          have h200 : batchSize = 200 := rfl
          exact List.ne_nil_of_length_pos (by omega)
        rw [hstep]
        refine ⟨collapse_len _ F hne hsums, hbatchlen, rfl, ?_, by left; simp⟩
        intro i
        simp only [stVal]
        rw [collapse_col _ F hsums i]
        simp only [hbatchcol i]
        ring
      · have hstep : buildStep hf F FBytes st p =
            ⟨st.sums, st.batch ++ List.replicate p.2
              ((hf p.1).drop ((hf p.1).length - FBytes)), st.count + p.2⟩ := by
          simp only [buildStep]
          rw [if_neg hskip, if_neg hflush, if_neg hcol]
        rw [hstep]
        refine ⟨hsums, hbatchlen, rfl, ?_, ?_⟩
        · intro i
          simp only [stVal]
          simp only [hbatchcol i]
          ring
        · right
          show st.batch ++ List.replicate p.2 ((hf p.1).drop ((hf p.1).length - FBytes)) ≠ []
          have hlen2 : (st.batch ++ List.replicate p.2
              ((hf p.1).drop ((hf p.1).length - FBytes))).length = st.batch.length + p.2 := by
            simp
          exact List.ne_nil_of_length_pos (by omega)

lemma totalWeight_cons {α : Type} (p : α × Nat) (fs : List (α × Nat)) :
    totalWeight (p :: fs) = p.2 + totalWeight fs := by
  simp [totalWeight]

lemma colSum_cons {α : Type} (hf : α → List Nat) (FBytes : Nat) (p : α × Nat)
    (fs : List (α × Nat)) (i : Nat) :
    colSum hf FBytes (p :: fs) i =
      p.2 * (bitArrayFromBytes ((hf p.1).drop ((hf p.1).length - FBytes))).getD i 0 +
        colSum hf FBytes fs i := by
  simp [colSum]

lemma buildFold_spec {α : Type} (hf : α → List Nat) (F FBytes : Nat) (hFB : F = 8 * FBytes) :
    ∀ (features : List (α × Nat)) (st : BState),
      (∀ r ∈ st.sums, r.length = F) → (∀ x ∈ st.batch, x.length = FBytes) →
      (∀ p ∈ features, 1 ≤ p.2) → (∀ p ∈ features, FBytes ≤ (hf p.1).length) →
      (∀ r ∈ (features.foldl (buildStep hf F FBytes) st).sums, r.length = F) ∧
      (∀ x ∈ (features.foldl (buildStep hf F FBytes) st).batch, x.length = FBytes) ∧
      (features.foldl (buildStep hf F FBytes) st).count = st.count + totalWeight features ∧
      (∀ i, stVal (features.foldl (buildStep hf F FBytes) st) i =
        stVal st i + colSum hf FBytes features i) ∧
      ((st.sums ≠ [] ∨ st.batch ≠ [] ∨ features ≠ []) →
        ((features.foldl (buildStep hf F FBytes) st).sums ≠ [] ∨
          (features.foldl (buildStep hf F FBytes) st).batch ≠ [])) := by
  intro features
  induction features with
  | nil =>
    intro st hsums hbatch _ _
    refine ⟨hsums, hbatch, by simp [totalWeight], by simp [colSum], ?_⟩
    intro hne
    rcases hne with h | h | h
    · exact Or.inl h
    · exact Or.inr h
    · exact absurd rfl h
  | cons p fs ih =>
    intro st hsums hbatch hw hlen
    simp only [List.foldl_cons]
    obtain ⟨s1, s2, s3, s4, s5⟩ := buildStep_spec hf F FBytes hFB st p hsums hbatch
      (hw p (by simp)) (hlen p (by simp))
    obtain ⟨i1, i2, i3, i4, i5⟩ := ih (buildStep hf F FBytes st p) s1 s2
      (fun q hq => hw q (by simp [hq])) (fun q hq => hlen q (by simp [hq]))
    refine ⟨i1, i2, ?_, ?_, ?_⟩
    · rw [i3, s3, totalWeight_cons]
      ring
    · intro i
      rw [i4 i, s4 i, colSum_cons]
      ring
    · intro _
      apply i5
      rcases s5 with h | h
      · exact Or.inl h
      · exact Or.inr (Or.inl h)

lemma stVal_init (i : Nat) : stVal ⟨[], [], 0⟩ i = 0 := by
  simp [stVal]

lemma buildByFeatures_canonical {α : Type} (hf : α → List Nat) (F FBytes : Nat)
    (hFB : F = 8 * FBytes) (features : List (α × Nat)) (hne : features ≠ [])
    (hw : ∀ p ∈ features, 1 ≤ p.2) (hlen : ∀ p ∈ features, FBytes ≤ (hf p.1).length) :
    buildByFeatures hf F FBytes features =
      bytesToNat (packBits ((List.range F).map (fun i =>
        if colSum hf FBytes features i > totalWeight features / 2 then 1 else 0))) := by
  obtain ⟨hS, hB, hC, hV, hNE⟩ := buildFold_spec hf F FBytes hFB features ⟨[], [], 0⟩
    (by simp) (by simp) hw hlen
  simp only [buildByFeatures]
  set st := features.foldl (buildStep hf F FBytes) (⟨[], [], 0⟩ : BState) with hst
  have hNE2 := hNE (Or.inr (Or.inr hne))
  set sums2 := if st.batch.length > 0 then st.sums ++ [sumHashes st.batch F] else st.sums
    with hsums2
  have hrows2 : ∀ r ∈ sums2, r.length = F := by
    rw [hsums2]
    split_ifs with hcond
    · intro r hr
      rcases List.mem_append.mp hr with hr1 | hr2
      · exact hS r hr1
      · rw [List.mem_singleton] at hr2
        subst hr2
        exact sumHashes_length _ _
    · exact hS
  have hne2 : sums2 ≠ [] := by
    rw [hsums2]
    split_ifs with hcond
    · simp
    · rcases hNE2 with h | h
      · exact h
      · exact absurd (List.eq_nil_of_length_eq_zero (by omega)) h
  have hcol2 : ∀ i, (sums2.map (fun r => r.getD i 0)).sum = stVal st i := by
    intro i
    rw [hsums2]
    split_ifs with hcond
    · rw [List.map_append, List.sum_append, List.map_singleton, List.sum_singleton,
        sumHashes_col st.batch F FBytes hFB hB i, stVal]
    · have hbempty : st.batch = [] := List.eq_nil_of_length_eq_zero (by omega)
      rw [stVal, hbempty]
      simp
  have hcombined : sumHashesBytes sums2 =
      (List.range F).map (fun i => colSum hf FBytes features i) := by
    apply List.ext_getElem
    · rw [sumHashesBytes_length_of_ne sums2 F hne2 hrows2, List.length_map, List.length_range]
    · intro i h1 h2
      have hiF : i < F := by
        rw [sumHashesBytes_length_of_ne sums2 F hne2 hrows2] at h1
        exact h1
      rw [← List.getD_eq_getElem (sumHashesBytes sums2) 0 h1,
        sumHashesBytes_col sums2 F hrows2 i, hcol2 i, hV i, stVal_init]
      rw [List.getElem_map, List.getElem_range]
      omega
  rw [hcombined, List.map_map, hC]
  simp [Function.comp_def]

/-! ## Size bound: every built fingerprint value fits in F bits -/

lemma sumHashesBytes_length_le (rows : List (List Nat)) (F : Nat)
    (hrows : ∀ r ∈ rows, r.length ≤ F) : (sumHashesBytes rows).length ≤ F := by
  match rows with
  | [] => simp [sumHashesBytes]
  | first :: rest =>
    show ((List.range first.length).map _).length ≤ F
    rw [List.length_map, List.length_range]
    exact hrows first (by simp)

lemma trunc_length_le (l : List Nat) (FBytes : Nat) :
    (l.drop (l.length - FBytes)).length ≤ FBytes := by
  rw [List.length_drop]
  omega

lemma buildStep_bound {α : Type} (hf : α → List Nat) (F FBytes : Nat) (hFB : F = 8 * FBytes)
    (st : BState) (p : α × Nat)
    (hsums : ∀ r ∈ st.sums, r.length ≤ F) (hbatch : ∀ x ∈ st.batch, x.length ≤ FBytes) :
    (∀ r ∈ (buildStep hf F FBytes st p).sums, r.length ≤ F) ∧
    (∀ x ∈ (buildStep hf F FBytes st p).batch, x.length ≤ FBytes) := by
  have hrowlen : ((bitArrayFromBytes ((hf p.1).drop ((hf p.1).length - FBytes))).map
      (fun bit => bit * p.2)).length ≤ F := by
    rw [List.length_map, length_bitArrayFromBytes, hFB]
    have := trunc_length_le (hf p.1) FBytes
    omega
  have hbatchlen : ∀ x ∈ st.batch ++ List.replicate p.2 ((hf p.1).drop ((hf p.1).length - FBytes)),
      x.length ≤ FBytes := by
    intro x hx
    rcases List.mem_append.mp hx with hx1 | hx2
    · exact hbatch x hx1
    · rw [List.eq_of_mem_replicate hx2]
      exact trunc_length_le _ _
  have happend : ∀ (row : List Nat), row.length ≤ F →
      ∀ r ∈ st.sums ++ [row], r.length ≤ F := by
    intro row hrow r hr
    rcases List.mem_append.mp hr with hr1 | hr2
    · exact hsums r hr1
    · rw [List.mem_singleton] at hr2
      subst hr2
      exact hrow
  simp only [buildStep]
  split_ifs with hskip hcol hflush hcol hcol
  · refine ⟨fun r hr => ?_, hbatch⟩
    rw [List.mem_singleton] at hr
    subst hr
    exact sumHashesBytes_length_le _ F (happend _ hrowlen)
  · exact ⟨happend _ hrowlen, hbatch⟩
  · refine ⟨fun r hr => ?_, by simp⟩
    rw [List.mem_singleton] at hr
    subst hr
    exact sumHashesBytes_length_le _ F (happend _ (le_of_eq (sumHashes_length _ _)))
  · exact ⟨happend _ (le_of_eq (sumHashes_length _ _)), by simp⟩
  · exact ⟨fun r hr => by
      rw [List.mem_singleton] at hr
      subst hr
      exact sumHashesBytes_length_le st.sums F hsums, hbatchlen⟩
  · exact ⟨hsums, hbatchlen⟩

lemma buildFold_bound {α : Type} (hf : α → List Nat) (F FBytes : Nat) (hFB : F = 8 * FBytes) :
    ∀ (features : List (α × Nat)) (st : BState),
      (∀ r ∈ st.sums, r.length ≤ F) → (∀ x ∈ st.batch, x.length ≤ FBytes) →
      (∀ r ∈ (features.foldl (buildStep hf F FBytes) st).sums, r.length ≤ F) ∧
      (∀ x ∈ (features.foldl (buildStep hf F FBytes) st).batch, x.length ≤ FBytes) := by
  intro features
  induction features with
  | nil => exact fun st hs hb => ⟨hs, hb⟩
  | cons p fs ih =>
    intro st hs hb
    simp only [List.foldl_cons]
    obtain ⟨s1, s2⟩ := buildStep_bound hf F FBytes hFB st p hs hb
    exact ih (buildStep hf F FBytes st p) s1 s2

lemma buildByFeatures_lt {α : Type} (hf : α → List Nat) (F FBytes : Nat)
    (hFB : F = 8 * FBytes) (features : List (α × Nat)) :
    buildByFeatures hf F FBytes features < 2 ^ F := by
  obtain ⟨hS, hB⟩ := buildFold_bound hf F FBytes hFB features ⟨[], [], 0⟩ (by simp) (by simp)
  simp only [buildByFeatures]
  set st := features.foldl (buildStep hf F FBytes) (⟨[], [], 0⟩ : BState) with hst
  set sums2 := if st.batch.length > 0 then st.sums ++ [sumHashes st.batch F] else st.sums
    with hsums2
  have hrows2 : ∀ r ∈ sums2, r.length ≤ F := by
    rw [hsums2]
    split_ifs with hcond
    · intro r hr
      rcases List.mem_append.mp hr with hr1 | hr2
      · exact hS r hr1
      · rw [List.mem_singleton] at hr2
        subst hr2
        exact le_of_eq (sumHashes_length _ _)
    · exact hS
  have hcomb : (sumHashesBytes sums2).length ≤ F := sumHashesBytes_length_le sums2 F hrows2
  have hbitslen : ((sumHashesBytes sums2).map
      (fun val => if val > st.count / 2 then 1 else 0)).length ≤ F := by
    rw [List.length_map]
    exact hcomb
  refine lt_of_lt_of_le (bytesToNat_packBits_lt _) (Nat.pow_le_pow_right (by omega) ?_)
  omega

/-! ## Index: bucket keys and the pigeonhole guarantee -/

/-- Offset of partition `j`. -/
def offsetOf (F K j : Nat) : Nat := (F / (K + 1)) * j

/-- Bit length of partition `j` (the last partition absorbs the remainder). -/
def maskLenOf (F K j : Nat) : Nat :=
  if j = K then F - offsetOf F K j else offsetOf F K (j + 1) - offsetOf F K j

/-- The bit chunk of `v` in partition `j`. -/
def chunkOf (F K v j : Nat) : Nat :=
  (v >>> offsetOf F K j) &&& (2 ^ maskLenOf F K j - 1)

lemma Offsets_length (s : SimhashIndex) : s.Offsets.length = s.K + 1 := by
  simp [SimhashIndex.Offsets]

lemma Offsets_getD (s : SimhashIndex) (j : Nat) (hj : j < s.K + 1) :
    s.Offsets.getD j 0 = offsetOf s.F s.K j := by
  rw [SimhashIndex.Offsets, getD_map_range _ _ _ _ hj]
  rfl

lemma getKeys_eq (s : SimhashIndex) (sim : Simhash) :
    s.GetKeys sim = (List.range (s.K + 1)).map
      (fun j => (chunkOf s.F s.K sim.value j, j)) := by
  simp only [SimhashIndex.GetKeys, Offsets_length]
  apply List.map_congr_left
  intro j hj
  rw [List.mem_range] at hj
  have hoff : s.Offsets.getD j 0 = offsetOf s.F s.K j := Offsets_getD s j hj
  by_cases hjK : j = s.K
  · subst hjK
    rw [if_pos (by omega), hoff]
    rw [chunkOf, maskLenOf, if_pos rfl]
  · rw [if_neg (by omega), hoff, Offsets_getD s (j + 1) (by omega)]
    rw [chunkOf, maskLenOf, if_neg hjK]

lemma chunk_mem_getKeys (s : SimhashIndex) (sim : Simhash) (j : Nat) (hj : j ≤ s.K) :
    (chunkOf s.F s.K sim.value j, j) ∈ s.GetKeys sim := by
  rw [getKeys_eq]
  exact List.mem_map.mpr ⟨j, List.mem_range.mpr (by omega), rfl⟩

lemma getKeys_nodup (s : SimhashIndex) (sim : Simhash) : (s.GetKeys sim).Nodup := by
  rw [getKeys_eq]
  refine List.Nodup.map ?_ (List.nodup_range _)
  intro x y hxy
  exact (Prod.ext_iff.mp hxy).2

lemma offset_add_maskLen_le (F K j : Nat) (hj : j ≤ K) :
    offsetOf F K j + maskLenOf F K j ≤ F := by
  have hc : F / (K + 1) * (K + 1) ≤ F := Nat.div_mul_le_self F (K + 1)
  rw [offsetOf, maskLenOf]
  by_cases hjK : j = K
  · rw [if_pos hjK, offsetOf]
    have hle : F / (K + 1) * j ≤ F / (K + 1) * (K + 1) := Nat.mul_le_mul_left _ (by omega)
    omega
  · rw [if_neg hjK, offsetOf, offsetOf]
    have h1 : F / (K + 1) * (j + 1) ≤ F / (K + 1) * (K + 1) := Nat.mul_le_mul_left _ (by omega)
    have h2 : F / (K + 1) * j ≤ F / (K + 1) * (j + 1) := Nat.mul_le_mul_left _ (by omega)
    omega

lemma offset_mono (F K j j2 : Nat) (h : j ≤ j2) : offsetOf F K j ≤ offsetOf F K j2 :=
  Nat.mul_le_mul_left _ h

lemma offset_add_maskLen_le_offset (F K j j2 : Nat) (hj : j < j2) (hj2 : j2 ≤ K) :
    offsetOf F K j + maskLenOf F K j ≤ offsetOf F K j2 := by
  have hjK : j ≠ K := by omega
  rw [maskLenOf, if_neg hjK]
  have h1 : offsetOf F K j ≤ offsetOf F K (j + 1) := offset_mono F K j (j + 1) (by omega)
  have h2 : offsetOf F K (j + 1) ≤ offsetOf F K j2 := offset_mono F K (j + 1) j2 (by omega)
  omega

lemma chunk_testBit (F K v j p : Nat) :
    (chunkOf F K v j).testBit p =
      (v.testBit (offsetOf F K j + p) && decide (p < maskLenOf F K j)) := by
  rw [chunkOf, Nat.testBit_and, Nat.testBit_shiftRight, Nat.testBit_two_pow_sub_one]

lemma pigeonhole_chunk (F K a b : Nat)
    (hdist : specHammingDist F a b ≤ K) :
    ∃ j, j ≤ K ∧ chunkOf F K a j = chunkOf F K b j := by
  by_contra hcon
  push_neg at hcon
  have hpick : ∀ j, j ≤ K → ∃ p, p < maskLenOf F K j ∧
      a.testBit (offsetOf F K j + p) ≠ b.testBit (offsetOf F K j + p) := by
    intro j hj
    obtain ⟨p, hp⟩ := Nat.ne_implies_bit_diff (hcon j hj)
    rw [chunk_testBit, chunk_testBit] at hp
    by_cases hpm : p < maskLenOf F K j
    · refine ⟨p, hpm, fun heq => hp ?_⟩
      rw [heq]
    · exfalso
      apply hp
      simp [hpm]
  choose pf hp1 hp2 using hpick
  set D := (Finset.range F).filter (fun i => a.testBit i ≠ b.testBit i) with hD
  set g : Nat → Nat := fun j => if h : j ≤ K then offsetOf F K j + pf j h else 0 with hg
  have hmaps : ∀ j ∈ Finset.range (K + 1), g j ∈ D := by
    intro j hj
    rw [Finset.mem_range] at hj
    have hjK : j ≤ K := by omega
    rw [hg]
    simp only [dif_pos hjK]
    rw [hD, Finset.mem_filter, Finset.mem_range]
    refine ⟨?_, hp2 j hjK⟩
    have := offset_add_maskLen_le F K j hjK
    have := hp1 j hjK
    omega
  have hinj : Set.InjOn g (Finset.range (K + 1)) := by
    intro x hx y hy hxy
    rw [Finset.coe_range, Set.mem_Iio] at hx hy
    by_contra hne
    have key : ∀ u w, u < w → w ≤ K → g u < g w := by
      intro u w huw hwK
      have huK : u ≤ K := by omega
      rw [hg]
      simp only [dif_pos huK, dif_pos hwK]
      have h1 : offsetOf F K u + pf u huK < offsetOf F K u + maskLenOf F K u := by
        have := hp1 u huK
        omega
      have h2 : offsetOf F K u + maskLenOf F K u ≤ offsetOf F K w :=
        offset_add_maskLen_le_offset F K u w huw hwK
      omega
    rcases Nat.lt_or_ge x y with h | h
    · have := key x y h (by omega)
      omega
    · have hyx : y < x := by omega
      have := key y x hyx (by omega)
      omega
  have hcard : (Finset.range (K + 1)).card ≤ D.card :=
    Finset.card_le_card_of_injOn g hmaps hinj
  rw [Finset.card_range] at hcard
  rw [specHammingDist] at hdist
  rw [hD] at hcard
  omega

/-! ## Index: closed forms for the Add/Delete bucket folds -/

lemma addFold_apply (keys : List (Nat × Nat)) (v : Nat × String)
    (t : (Nat × Nat) → Option (Finset (Nat × String))) (k : Nat × Nat) :
    (keys.foldl (fun t key =>
      Function.update t key (some (insert v ((t key).getD ∅)))) t) k =
      if k ∈ keys then some (insert v ((t k).getD ∅)) else t k := by
  induction keys generalizing t with
  | nil => simp
  | cons k0 ks ih =>
    simp only [List.foldl_cons]
    rw [ih]
    by_cases hk : k ∈ ks
    · rw [if_pos hk, if_pos (by simp [hk])]
      by_cases hkk0 : k = k0
      · subst hkk0
        rw [Function.update_same]
        simp
      · rw [Function.update_noteq hkk0]
    · rw [if_neg hk]
      by_cases hkk0 : k = k0
      · subst hkk0
        rw [if_pos (by simp), Function.update_same]
      · rw [if_neg (by simp [hkk0, hk]), Function.update_noteq hkk0]

lemma delFold_apply (keys : List (Nat × Nat)) (v : Nat × String)
    (t : (Nat × Nat) → Option (Finset (Nat × String))) (k : Nat × Nat)
    (hnd : keys.Nodup) :
    (keys.foldl (fun t key =>
      match t key with
      | none => t
      | some bucket =>
        Function.update t key (if bucket.erase v = ∅ then none else some (bucket.erase v))) t) k =
      if k ∈ keys then
        match t k with
        | none => none
        | some bucket => if bucket.erase v = ∅ then none else some (bucket.erase v)
      else t k := by
  induction keys generalizing t with
  | nil => simp
  | cons k0 ks ih =>
    have hk0 : k0 ∉ ks := (List.nodup_cons.mp hnd).1
    have hndt : ks.Nodup := (List.nodup_cons.mp hnd).2
    simp only [List.foldl_cons]
    rw [ih _ hndt]
    by_cases hk : k ∈ ks
    · have hkk0 : k ≠ k0 := fun he => hk0 (he ▸ hk)
      rw [if_pos hk, if_pos (by simp [hk])]
      have hstep : (match t k0 with
          | none => t
          | some bucket => Function.update t k0
              (if bucket.erase v = ∅ then none else some (bucket.erase v))) k = t k := by
        match h0 : t k0 with
        | none => rfl
        | some bucket => exact Function.update_noteq hkk0 _ _
      rw [hstep]
    · rw [if_neg hk]
      by_cases hkk0 : k = k0
      · subst hkk0
        rw [if_pos (by simp)]
        match h0 : t k with
        | none => simp [h0]
        | some bucket => exact Function.update_same _ _ _
      · rw [if_neg (by simp [hkk0, hk])]
        match h0 : t k0 with
        | none => rfl
        | some bucket => exact Function.update_noteq hkk0 _ _

/-! ## Index: membership in the GetNearDups union fold -/

lemma subset_foldl_union (keys : List (Nat × Nat)) (f : (Nat × Nat) → Finset String)
    (res : Finset String) : res ⊆ keys.foldl (fun r k => r ∪ f k) res := by
  induction keys generalizing res with
  | nil => exact Finset.Subset.refl res
  | cons k0 ks ih =>
    simp only [List.foldl_cons]
    exact Finset.Subset.trans Finset.subset_union_left (ih _)

lemma mem_foldl_union (keys : List (Nat × Nat)) (f : (Nat × Nat) → Finset String)
    (k : Nat × Nat) (hk : k ∈ keys) (x : String) (hx : x ∈ f k) (res : Finset String) :
    x ∈ keys.foldl (fun r k => r ∪ f k) res := by
  induction keys generalizing res with
  | nil => simp at hk
  | cons k0 ks ih =>
    simp only [List.foldl_cons]
    rcases List.mem_cons.mp hk with hk1 | hk2
    · subst hk1
      exact subset_foldl_union ks f _ (Finset.mem_union_right res hx)
    · exact ih hk2 _

lemma Add_eq (s : SimhashIndex) (id : String) (sh : Simhash) (hw : sh.F = s.F) :
    s.Add ⟨id, some sh⟩ = { s with Bucket := (fun k =>
      if k ∈ s.GetKeys sh then some (insert (entryVal sh id) ((s.Bucket k).getD ∅))
      else s.Bucket k) } := by
  simp only [SimhashIndex.Add]
  rw [if_neg (fun h => h hw)]
  refine SimhashIndex.ext rfl rfl ?_
  funext k
  dsimp only
  rw [addFold_apply]

lemma Delete_eq (s : SimhashIndex) (id : String) (sh : Simhash) (hw : sh.F = s.F) :
    s.Delete ⟨id, some sh⟩ = { s with Bucket := (fun k =>
      if k ∈ s.GetKeys sh then
        match s.Bucket k with
        | none => none
        | some bucket => if bucket.erase (entryVal sh id) = ∅ then none
            else some (bucket.erase (entryVal sh id))
      else s.Bucket k) } := by
  simp only [SimhashIndex.Delete]
  rw [if_neg (fun h => h hw)]
  refine SimhashIndex.ext rfl rfl ?_
  funext k
  dsimp only
  rw [delFold_apply _ _ _ _ (getKeys_nodup s sh)]

/-! ## Claim theorems -/

/-- C6: for Fingerprints of different widths, `Distance` (and the spec-modelled
`Similarity`) fails with `none` instead of returning a number; for matching
widths `Distance` returns the population count of
`(a.value XOR b.value) AND ((1 << width) - 1)`, i.e. the number of bit
positions below the width where the two values differ. -/
theorem claim_C6_distance (a b : Simhash) :
    (a.F ≠ b.F → a.Distance b = none ∧ a.Similarity b = none) ∧
    (a.F = b.F → a.Distance b = some (((Finset.range a.F).filter
      (fun i => a.value.testBit i ≠ b.value.testBit i)).card)) := by
  constructor
  · intro hne
    refine ⟨?_, ?_⟩
    · rw [Simhash.Distance, if_pos hne]
    · rw [Simhash.Similarity, Simhash.Distance, if_pos hne]
      rfl
  · intro heq
    rw [Simhash.Distance, if_neg (fun h => h heq), hammingLoop_masked]
    rfl

/-- C6 witness at concrete widths 8 vs 16 and 8 vs 8. -/
theorem claim_C6_witness :
    Simhash.Distance ⟨3, 8⟩ ⟨5, 16⟩ = none ∧
    Simhash.Distance ⟨3, 8⟩ ⟨5, 8⟩ = some (((Finset.range 8).filter
      (fun i => Nat.testBit 3 i ≠ Nat.testBit 5 i)).card) :=
  ⟨((claim_C6_distance ⟨3, 8⟩ ⟨5, 16⟩).1 (by decide)).1,
   (claim_C6_distance ⟨3, 8⟩ ⟨5, 8⟩).2 rfl⟩

/-- C5 counterexample: `Equal` does not compare widths — two Fingerprints with
widths 8 and 64 but equal value 300 are reported equal. -/
theorem claim_C5_counterexample :
    Simhash.Equal ⟨300, 8⟩ ⟨300, 64⟩ = true ∧ (⟨300, 8⟩ : Simhash).F ≠ (⟨300, 64⟩ : Simhash).F :=
  ⟨by decide, by decide⟩

/-- C5 amended: `Equal` compares only the values (`Value.Cmp == 0`); equal
values are reported equal regardless of the widths, so a width mismatch is not
detected by `Equal`. -/
theorem claim_C5_equal_value_only (a b : Simhash) :
    a.Equal b = true ↔ a.value = b.value := by
  rw [Simhash.Equal]
  exact beq_iff_eq

/-- C10: for an input value of unsupported dynamic type, `NewSimhash` returns
`nil` (`none`), regardless of the options supplied. -/
theorem claim_C10_unsupported (hf : String → List Nat) (opts : List OptAction) :
    newSimhash hf SValue.other opts = none := rfl

/-- C9 counterexample: F = -8 is not a positive multiple of 8, yet Go's
truncated `%` gives `(-8) % 8 == 0`, so the validation keeps F = -8 instead of
falling back to 64. -/
theorem claim_C9_counterexample : validateF (-8) = -8 ∧ validateF (-8) ≠ 64 := by
  constructor
  · decide
  · decide

/-- C9 amended: for every configured width F with F = 0 or F not divisible by 8
(Go truncated remainder), construction falls back to the default width 64 and
completes normally for every supported input value. (Negative multiples of 8
pass the `F%8 != 0 || F == 0` check unchanged; see the counterexample.) -/
theorem claim_C9_fallback (hf : String → List Nat) (opts : List OptAction) (v : SValue)
    (hguard : (applyOpts 64 opts).tmod 8 ≠ 0 ∨ applyOpts 64 opts = 0)
    (hv : v ≠ SValue.other) :
    ∃ s, newSimhash hf v opts = some s ∧ s.F = 64 := by
  have hval : validateF (applyOpts 64 opts) = 64 := by
    rw [validateF, if_pos hguard]
  cases v with
  | other => exact absurd rfl hv
  | simhash s0 =>
    refine ⟨_, rfl, ?_⟩
    show (validateF (applyOpts 64 opts)).toNat = 64
    rw [hval]
    rfl
  | str c =>
    refine ⟨_, rfl, ?_⟩
    show (validateF (applyOpts 64 opts)).toNat = 64
    rw [hval]
    rfl
  | features m =>
    refine ⟨_, rfl, ?_⟩
    show (validateF (applyOpts 64 opts)).toNat = 64
    rw [hval]
    rfl
  | strList l =>
    refine ⟨_, rfl, ?_⟩
    show (validateF (applyOpts 64 opts)).toNat = 64
    rw [hval]
    rfl
  | int64 n =>
    refine ⟨_, rfl, ?_⟩
    show (validateF (applyOpts 64 opts)).toNat = 64
    rw [hval]
    rfl
  | bigInt n =>
    refine ⟨_, rfl, ?_⟩
    show (validateF (applyOpts 64 opts)).toNat = 64
    rw [hval]
    rfl

/-- C9 witness: width 7 falls back to 64 on an integer input. -/
theorem claim_C9_witness :
    ∃ s, newSimhash (fun _ => [0]) (SValue.int64 5) [OptAction.withF 7] = some s ∧ s.F = 64 :=
  claim_C9_fallback (fun _ => [0]) [OptAction.withF 7] (SValue.int64 5) (by decide)
    (fun h => SValue.noConfusion h)

/-- C7: for an entry or query fingerprint whose width differs from the index's
F, `Add` and `Delete` leave the index (in particular the bucket table)
unchanged and `GetNearDups` returns the empty result; no error is raised. -/
theorem claim_C7_width_mismatch_noop (s : SimhashIndex) (id : String) (sh q : Simhash)
    (h1 : sh.F ≠ s.F) (h2 : q.F ≠ s.F) :
    s.Add ⟨id, some sh⟩ = s ∧ s.Delete ⟨id, some sh⟩ = s ∧ s.GetNearDups q = ∅ := by
  refine ⟨?_, ?_, ?_⟩
  · rw [SimhashIndex.Add]
    exact if_pos h1
  · rw [SimhashIndex.Delete]
    exact if_pos h1
  · rw [SimhashIndex.GetNearDups]
    exact if_pos h2

/-- C7 witness: a width-8 entry and query against a width-64 index. -/
theorem claim_C7_witness :
    SimhashIndex.Add ⟨2, 64, fun _ => none⟩ ⟨"x", some ⟨5, 8⟩⟩ = ⟨2, 64, fun _ => none⟩ ∧
    SimhashIndex.Delete ⟨2, 64, fun _ => none⟩ ⟨"x", some ⟨5, 8⟩⟩ = ⟨2, 64, fun _ => none⟩ ∧
    SimhashIndex.GetNearDups ⟨2, 64, fun _ => none⟩ ⟨5, 8⟩ = ∅ :=
  claim_C7_width_mismatch_noop ⟨2, 64, fun _ => none⟩ "x" ⟨5, 8⟩ ⟨5, 8⟩ (by decide) (by decide)

/-- C2: in fingerprint construction from a weighted feature mapping, output bit
`i` (most-significant-first, i.e. bit `F-1-i` of the value) is 1 exactly when
the accumulated column sum `combined[i]` is strictly greater than
`totalWeight / 2` under integer division; in particular a column sum equal to
exactly `totalWeight / 2` leaves the bit 0. -/
theorem claim_C2_majority {α : Type} (hf : α → List Nat) (FBytes : Nat)
    (features : List (α × Nat)) (hne : features ≠ [])
    (hw : ∀ p ∈ features, 1 ≤ p.2)
    (hlen : ∀ p ∈ features, FBytes ≤ (hf p.1).length)
    (i : Nat) (hi : i < 8 * FBytes) :
    (buildByFeatures hf (8 * FBytes) FBytes features).testBit (8 * FBytes - 1 - i) =
      decide (colSum hf FBytes features i > totalWeight features / 2) := by
  rw [buildByFeatures_canonical hf (8 * FBytes) FBytes rfl features hne hw hlen]
  set bits := (List.range (8 * FBytes)).map (fun i =>
    if colSum hf FBytes features i > totalWeight features / 2 then 1 else 0) with hbits
  have hblen : bits.length = 8 * FBytes := by
    rw [hbits, List.length_map, List.length_range]
  have hTB := testBit_pack bits FBytes hblen i (by omega)
  rw [hblen] at hTB
  rw [hTB, hbits, getD_map_range _ (8 * FBytes) i 0 hi]
  by_cases hcase : colSum hf FBytes features i > totalWeight features / 2
  · simp [hcase]
  · simp [hcase]

/-- C2 witness: two unit-weight features with one-byte digests 202 and 75;
column 1 has sum 2 > 1 = totalWeight/2, so bit 1 (value bit 6) is set. -/
theorem claim_C2_witness :
    (buildByFeatures (fun t : Nat => [t]) (8 * 1) 1 [(202, 1), (75, 1)]).testBit (8 * 1 - 1 - 1) =
      decide (colSum (fun t : Nat => [t]) 1 [(202, 1), (75, 1)] 1 >
        totalWeight [(202, 1), (75, 1)] / 2) :=
  claim_C2_majority (fun t : Nat => [t]) 1 [(202, 1), (75, 1)] (by decide) (by decide)
    (by decide) 1 (by decide)

/-- C3: a single feature with weight above the large-weight cutoff built via the
skip-batch path yields the same fingerprint as the same feature expanded into
`w` unit-weight copies through the batched path, for every digest function. -/
theorem claim_C3_largeweight {α : Type} (hf : α → List Nat) (FBytes : Nat) (t : α) (w : Nat)
    (hcut : w > largeWeightCutoff) (hlen : FBytes ≤ (hf t).length) :
    buildByFeatures hf (8 * FBytes) FBytes [(t, w)] =
      buildByFeatures hf (8 * FBytes) FBytes (List.replicate w (t, 1)) := by
  have h50 : largeWeightCutoff = 50 := rfl
  have hw1 : 1 ≤ w := by omega
  rw [buildByFeatures_canonical hf (8 * FBytes) FBytes rfl [(t, w)] (by simp)
    (by
      intro p hp
      rw [List.mem_singleton] at hp
      subst hp
      exact hw1)
    (by
      intro p hp
      rw [List.mem_singleton] at hp
      subst hp
      exact hlen)]
  rw [buildByFeatures_canonical hf (8 * FBytes) FBytes rfl (List.replicate w (t, 1))
    (by
      intro he
      have := congrArg List.length he
      simp at this
      omega)
    (by
      intro p hp
      rw [List.eq_of_mem_replicate hp])
    (by
      intro p hp
      rw [List.eq_of_mem_replicate hp]
      exact hlen)]
  have hW : totalWeight (List.replicate w ((t, 1) : α × Nat)) = totalWeight [(t, w)] := by
    simp [totalWeight, List.map_replicate, List.sum_replicate]
  have hcol : ∀ i, colSum hf FBytes (List.replicate w ((t, 1) : α × Nat)) i =
      colSum hf FBytes [(t, w)] i := by
    intro i
    simp [colSum, List.map_replicate, List.sum_replicate, smul_eq_mul]
  have hmaps : (List.range (8 * FBytes)).map (fun i =>
      if colSum hf FBytes (List.replicate w ((t, 1) : α × Nat)) i >
        totalWeight (List.replicate w ((t, 1) : α × Nat)) / 2 then 1 else 0) =
      (List.range (8 * FBytes)).map (fun i =>
      if colSum hf FBytes [(t, w)] i > totalWeight [(t, w)] / 2 then 1 else 0) := by
    apply List.map_congr_left
    intro i _
    rw [hcol i, hW]
  rw [hmaps]

/-- C3 witness: weight 51 versus 51 unit-weight copies, one-byte digest. -/
theorem claim_C3_witness :
    buildByFeatures (fun t : Nat => [t]) (8 * 1) 1 [(0, 51)] =
      buildByFeatures (fun t : Nat => [t]) (8 * 1) 1 (List.replicate 51 (0, 1)) :=
  claim_C3_largeweight (fun t : Nat => [t]) 1 0 51 (by decide) (by decide)

lemma validateF_toNat_mod8 (x : Int) : (validateF x).toNat % 8 = 0 := by
  rw [validateF]
  split_ifs with h
  · rfl
  · push_neg at h
    obtain ⟨h1, h2⟩ := h
    rcases le_or_lt 0 x with hx | hx
    · rw [Int.tmod_eq_emod hx (by omega)] at h1
      omega
    · rw [Int.toNat_of_nonpos (by omega)]

/-- C4 counterexample: the raw-integer constructor path stores the input value
unchanged, so `NewSimhash(int64 300, WithF(8))` produces a Fingerprint with
value 300 ≥ 2^8 — the invariant `value < 2^F` fails on that path. -/
theorem claim_C4_counterexample :
    newSimhash (fun _ => [0]) (SValue.int64 300) [OptAction.withF 8] = some ⟨300, 8⟩ ∧
    ¬ ((300 : Nat) < 2 ^ 8) := by
  constructor
  · rfl
  · decide

/-- C4 amended: fingerprints built from a feature mapping, from text, or from a
string list always satisfy `value < 2^F`; the raw-integer paths (int64, big
integer) store the supplied value unchanged, so for them the invariant holds
only when the input is already below `2^F`. (Values are never mutated after
construction: the embedding is purely functional, mirroring that no Go method
writes `Value` after `NewSimhash` returns.) -/
theorem claim_C4_built_lt (hf : String → List Nat) (opts : List OptAction) (v : SValue)
    (hv : (∃ c, v = SValue.str c) ∨ (∃ m, v = SValue.features m) ∨
      (∃ l, v = SValue.strList l))
    (s : Simhash) (hs : newSimhash hf v opts = some s) :
    s.value < 2 ^ s.F := by
  have hFB : (validateF (applyOpts 64 opts)).toNat =
      8 * ((validateF (applyOpts 64 opts)).toNat / 8) := by
    have := validateF_toNat_mod8 (applyOpts 64 opts)
    omega
  rcases hv with ⟨c, rfl⟩ | ⟨m, rfl⟩ | ⟨l, rfl⟩
  · cases hs
    exact buildByFeatures_lt _ _ _ hFB _
  · cases hs
    exact buildByFeatures_lt _ _ _ hFB _
  · cases hs
    exact buildByFeatures_lt _ _ _ hFB _

/-- C4 witness: a one-feature mapping built at the default width. -/
theorem claim_C4_witness :
    ∃ s, newSimhash (fun _ => [0]) (SValue.features [("a", 1)]) [] = some s ∧
      s.value < 2 ^ s.F :=
  ⟨_, rfl, claim_C4_built_lt (fun _ => [0]) [] (SValue.features [("a", 1)])
    (Or.inr (Or.inl ⟨_, rfl⟩)) _ rfl⟩

/-- C8: for an entry of matching width, Add twice equals Add once, Delete twice
equals Delete once, and after a Delete every processed bucket that would be
left empty is removed from the table (never present-but-empty). -/
theorem claim_C8_idempotent (s : SimhashIndex) (id : String) (sh : Simhash)
    (hw : sh.F = s.F) :
    (s.Add ⟨id, some sh⟩).Add ⟨id, some sh⟩ = s.Add ⟨id, some sh⟩ ∧
    (s.Delete ⟨id, some sh⟩).Delete ⟨id, some sh⟩ = s.Delete ⟨id, some sh⟩ ∧
    ∀ k ∈ s.GetKeys sh, (s.Delete ⟨id, some sh⟩).Bucket k ≠ some ∅ := by
  have hA := Add_eq s id sh hw
  have hD := Delete_eq s id sh hw
  set f : (Nat × Nat) → Option (Finset (Nat × String)) := fun k =>
    if k ∈ s.GetKeys sh then some (insert (entryVal sh id) ((s.Bucket k).getD ∅))
    else s.Bucket k with hf
  set g : (Nat × Nat) → Option (Finset (Nat × String)) := fun k =>
    if k ∈ s.GetKeys sh then
      match s.Bucket k with
      | none => none
      | some bucket => if bucket.erase (entryVal sh id) = ∅ then none
          else some (bucket.erase (entryVal sh id))
    else s.Bucket k with hg
  refine ⟨?_, ?_, ?_⟩
  · rw [hA, Add_eq { s with Bucket := f } id sh hw]
    refine SimhashIndex.ext rfl rfl ?_
    funext k
    dsimp only
    have hkeys : ({ s with Bucket := f } : SimhashIndex).GetKeys sh = s.GetKeys sh := rfl
    rw [hkeys]
    by_cases hk : k ∈ s.GetKeys sh
    · rw [if_pos hk, hf]
      dsimp only
      rw [if_pos hk]
      simp
    · rw [if_neg hk]
  · rw [hD, Delete_eq { s with Bucket := g } id sh hw]
    refine SimhashIndex.ext rfl rfl ?_
    funext k
    dsimp only
    have hkeys : ({ s with Bucket := g } : SimhashIndex).GetKeys sh = s.GetKeys sh := rfl
    rw [hkeys]
    by_cases hk : k ∈ s.GetKeys sh
    · rw [if_pos hk, hg]
      dsimp only
      rw [if_pos hk]
      rcases hb : s.Bucket k with _ | bucket
      · rfl
      · by_cases he : bucket.erase (entryVal sh id) = ∅
        · simp [he]
        · simp [he, Finset.erase_idem]
    · rw [if_neg hk]
  · intro k hk
    rw [hD]
    show g k ≠ some ∅
    rw [hg]
    dsimp only
    rw [if_pos hk]
    rcases hb : s.Bucket k with _ | bucket
    · exact fun h => Option.noConfusion h
    · by_cases he : bucket.erase (entryVal sh id) = ∅
      · simp [he]
      · simp [he]

/-- C8 witness: a concrete width-8 entry on an index that already holds it. -/
theorem claim_C8_witness :
    ((SimhashIndex.Add ⟨2, 8, fun _ => none⟩ ⟨"x", some ⟨5, 8⟩⟩).Add ⟨"x", some ⟨5, 8⟩⟩ =
      SimhashIndex.Add ⟨2, 8, fun _ => none⟩ ⟨"x", some ⟨5, 8⟩⟩) ∧
    ((SimhashIndex.Delete ⟨2, 8, fun _ => none⟩ ⟨"x", some ⟨5, 8⟩⟩).Delete ⟨"x", some ⟨5, 8⟩⟩ =
      SimhashIndex.Delete ⟨2, 8, fun _ => none⟩ ⟨"x", some ⟨5, 8⟩⟩) ∧
    ∀ k ∈ SimhashIndex.GetKeys ⟨2, 8, fun _ => none⟩ ⟨5, 8⟩,
      (SimhashIndex.Delete ⟨2, 8, fun _ => none⟩ ⟨"x", some ⟨5, 8⟩⟩).Bucket k ≠ some ∅ :=
  claim_C8_idempotent ⟨2, 8, fun _ => none⟩ "x" ⟨5, 8⟩ (by decide)

/-- C1: for an index of width F and tolerance K and any two width-F fingerprint
values a, b with Hamming distance at most K, the K+1 bucket keys computed by
GetKeys for a and for b share at least one key; consequently, after the entry
(id, b) has been added, GetNearDups on a returns id. -/
theorem claim_C1_no_false_negatives (F K : Nat) (a b : Nat) (ha : a < 2 ^ F)
    (hb : b < 2 ^ F) (hdist : specHammingDist F a b ≤ K) (s : SimhashIndex)
    (hF : s.F = F) (hK : s.K = K) (id : String) :
    (∃ k, k ∈ s.GetKeys ⟨a, F⟩ ∧ k ∈ s.GetKeys ⟨b, F⟩) ∧
    id ∈ (s.Add ⟨id, some ⟨b, F⟩⟩).GetNearDups ⟨a, F⟩ := by
  subst hF
  subst hK
  obtain ⟨j, hj, hchunk⟩ := pigeonhole_chunk s.F s.K a b hdist
  have hka : (chunkOf s.F s.K a j, j) ∈ s.GetKeys ⟨a, s.F⟩ :=
    chunk_mem_getKeys s ⟨a, s.F⟩ j hj
  have hkb : (chunkOf s.F s.K a j, j) ∈ s.GetKeys ⟨b, s.F⟩ := by
    rw [hchunk]
    exact chunk_mem_getKeys s ⟨b, s.F⟩ j hj
  refine ⟨⟨(chunkOf s.F s.K a j, j), hka, hkb⟩, ?_⟩
  rw [Add_eq s id ⟨b, s.F⟩ rfl]
  set f : (Nat × Nat) → Option (Finset (Nat × String)) := fun k =>
    if k ∈ s.GetKeys ⟨b, s.F⟩ then
      some (insert (entryVal ⟨b, s.F⟩ id) ((s.Bucket k).getD ∅))
    else s.Bucket k with hf
  rw [SimhashIndex.GetNearDups]
  rw [if_neg (fun h => h rfl)]
  have hkeys : ({ s with Bucket := f } : SimhashIndex).GetKeys ⟨a, s.F⟩ =
      s.GetKeys ⟨a, s.F⟩ := rfl
  rw [hkeys]
  apply mem_foldl_union (s.GetKeys ⟨a, s.F⟩) _ (chunkOf s.F s.K a j, j) hka id
  have hbucket : ({ s with Bucket := f } : SimhashIndex).Bucket (chunkOf s.F s.K a j, j) =
      some (insert (entryVal ⟨b, s.F⟩ id)
        ((s.Bucket (chunkOf s.F s.K a j, j)).getD ∅)) := by
    show f (chunkOf s.F s.K a j, j) = _
    rw [hf]
    dsimp only
    rw [if_pos hkb]
  rw [hbucket]
  apply Finset.mem_image.mpr
  refine ⟨entryVal ⟨b, s.F⟩ id, ?_, rfl⟩
  apply Finset.mem_filter.mpr
  refine ⟨Finset.mem_insert_self _ _, ?_⟩
  show (Simhash.Distance ⟨a, s.F⟩ _).getD _ ≤ _
  rw [Simhash.Distance, if_neg (fun h => h rfl)]
  show hammingLoop ((a ^^^ b) &&& (2 ^ s.F - 1)) ≤ s.K
  rw [hammingLoop_masked]
  exact hdist

/-- C1 witness: width 8, tolerance 2, values 129 and 131 at distance 1. -/
theorem claim_C1_witness :
    (∃ k, k ∈ SimhashIndex.GetKeys ⟨2, 8, fun _ => none⟩ ⟨129, 8⟩ ∧
      k ∈ SimhashIndex.GetKeys ⟨2, 8, fun _ => none⟩ ⟨131, 8⟩) ∧
    "x" ∈ (SimhashIndex.Add ⟨2, 8, fun _ => none⟩
      ⟨"x", some ⟨131, 8⟩⟩).GetNearDups ⟨129, 8⟩ :=
  claim_C1_no_false_negatives 8 2 129 131 (by decide) (by decide) (by decide)
    ⟨2, 8, fun _ => none⟩ rfl rfl "x"
